import Mathlib

/-!
Verification of the GEDS contact-finder pipeline.

This file gives a shallow embedding of the data-processing core of the
application (src/app.py): the acronym deriver, the per-row enrichment
(role display name, team, team parent, searchable department), and the
four-step cascading filter with its dependent option lists.  Strings are
modelled as Lean strings / lists of characters; missing values (pandas
NaN, Python non-string inputs) are modelled as `none` of `Option`.
Theorems about the claims of the specification follow the definitions.
-/

namespace Geds

/-! ## Acronym deriver (src/app.py, create_acronym)

The source removes parenthesized text with Python's
re.sub applied to the pattern backslash-open-paren dot star
backslash-close-paren: a greedy regex match that starts at the first
usable open parenthesis and, because the dot does not match a newline,
extends to the last close parenthesis occurring before the next newline;
substitution then continues scanning after the match.
-/

/-- dropThroughLastClose cs drops the maximal newline-free prefix of cs up to and
including its last close parenthesis, returning the remainder; it returns none
when that prefix holds no close parenthesis.  This models the greedy extent of
the dot-star in the regex. -/
def dropThroughLastClose : List Char → Option (List Char)
  | [] => none
  | c :: cs =>
    if c = '\n' then none
    else
      match dropThroughLastClose cs with
      | some rest => some rest
      | none => if c = ')' then some cs else none

/-- subParensFuel models repeated substitution of the greedy parenthesis regex by
the empty string, as performed by re.sub in the source.  The fuel argument only
serves termination; fuel at least the list length is always sufficient. -/
def subParensFuel : Nat → List Char → List Char
  | 0, cs => cs
  | _ + 1, [] => []
  | n + 1, c :: cs =>
    if c = '(' then
      match dropThroughLastClose cs with
      | some rest => subParensFuel n rest
      | none => c :: subParensFuel n cs
    else c :: subParensFuel n cs

/-- subParens cs is cs with every greedy regex match of parenthesized text
removed, exactly as re.sub does in create_acronym. -/
def subParens (cs : List Char) : List Char :=
  subParensFuel cs.length cs

/-- trimChars models Python str.strip: leading and trailing whitespace removed. -/
def trimChars (cs : List Char) : List Char :=
  ((cs.dropWhile Char.isWhitespace).reverse.dropWhile Char.isWhitespace).reverse

/-- splitWsAux accumulates the current word (in reverse) while scanning;
whitespace flushes the word.  This models Python str.split with no argument,
which splits on whitespace runs and yields no empty words. -/
def splitWsAux : List Char → List Char → List (List Char)
  | [], acc => if acc = [] then [] else [acc.reverse]
  | c :: cs, acc =>
    if c.isWhitespace then
      (if acc = [] then [] else [acc.reverse]) ++ splitWsAux cs []
    else splitWsAux cs (c :: acc)

/-- pySplit models Python str.split() on whitespace. -/
def pySplit (cs : List Char) : List (List Char) :=
  splitWsAux cs []

/-- stop_words is the fixed stop-word set of create_acronym. -/
def stop_words : List (List Char) :=
  ["of".data, "and".data, "the".data, "for".data, "et".data, "des".data,
   "la".data, "le".data]

/-- acrWords cs is the list of whitespace-delimited words of cs (after the strip)
whose lower-cased form is not a stop word. -/
def acrWords (cs : List Char) : List (List Char) :=
  (pySplit (trimChars cs)).filter
    (fun w => !(stop_words.contains (w.map Char.toLower)))

/-- acrAssemble concatenates the upper-cased first character of each word, as the
join of one-character strings in the source. -/
def acrAssemble (ws : List (List Char)) : String :=
  ((ws.map (fun w =>
    match w with
    | [] => ([] : List Char)
    | c :: _ => [c.toUpper])).flatten).asString

/-- create_acronym models the source helper of the same name.  A non-string
input (modelled as none) yields the empty string; a string input is stripped of
parenthesized text by the greedy regex, stripped of surrounding whitespace,
split on whitespace, filtered of stop words, and reduced to upper-cased first
letters. -/
def create_acronym : Option String → String
  | none => ""
  | some name => acrAssemble (acrWords (subParens name.data))

/-! ## Claim-side acronym description

The specification describes the removal step as deleting every parenthesized
sub-string.  The description below is written from those words: a position is
removed exactly when it lies inside some span that starts at an open
parenthesis and ends at a close parenthesis. -/

/-- coveredIdx cs k holds when position k of cs lies within some parenthesized
span: an open parenthesis at or before k together with a close parenthesis at
or after k. -/
def coveredIdx (cs : List Char) (k : Nat) : Bool :=
  (cs.take (k + 1)).any (fun c => c = '(') && (cs.drop k).any (fun c => c = ')')

/-- removeCoveredAux walks suf, whose first element sits at position k of cs,
dropping each character whose position is covered by a parenthesized span. -/
def removeCoveredAux (cs : List Char) : Nat → List Char → List Char
  | _, [] => []
  | k, c :: rest =>
    match coveredIdx cs k with
    | true => removeCoveredAux cs (k + 1) rest
    | false => c :: removeCoveredAux cs (k + 1) rest

/-- removeCovered cs deletes every character of cs lying inside a parenthesized
span, the specification's removal of every parenthesized sub-string. -/
def removeCovered (cs : List Char) : List Char :=
  removeCoveredAux cs 0 cs

/-- acronymClaim is the acronym computation as the specification words it, with
the claim-side removal of parenthesized sub-strings in place of the source's
greedy regex; the remaining steps are shared. -/
def acronymClaim : Option String → String
  | none => ""
  | some name => acrAssemble (acrWords (removeCovered name.data))

/-- hasPair cs holds when some open parenthesis of cs is followed, strictly
later, by some close parenthesis: exactly when a parenthesized span exists. -/
def hasPair : List Char → Bool
  | [] => false
  | c :: cs => (c = '(' && cs.any (fun d => d = ')')) || hasPair cs

/-! ## Enrichment stage (src/app.py, load_and_process_data)

Each lambda applied per row in the source becomes a function on an optional
string: none stands for a pandas missing value or any non-string cell, which
the source's isinstance guards pass through unchanged. -/

/-- splitDelim models Python str.split with the exact three-character separator
space-slash-space: leftmost, non-overlapping occurrences. -/
def splitDelim : List Char → List (List Char)
  | ' ' :: '/' :: ' ' :: rest => [] :: splitDelim rest
  | c :: rest =>
    match splitDelim rest with
    | s :: ss => (c :: s) :: ss
    | [] => [[c]]
  | [] => [[]]

/-- containsDelim models the Python membership test of the separator
space-slash-space in a string. -/
def containsDelim : List Char → Bool
  | ' ' :: '/' :: ' ' :: _ => true
  | _ :: rest => containsDelim rest
  | [] => false

/-- team models the Team lambda: the last path segment when the value is a
string containing the separator, otherwise the value itself. -/
def team : Option String → Option String
  | none => none
  | some path =>
    if containsDelim path.data then
      some ((splitDelim path.data).getLastD []).asString
    else some path

/-- teamParent models the TeamParent lambda: the second-to-last path segment
when the split yields more than one segment, otherwise none. -/
def teamParent : Option String → Option String
  | none => none
  | some path =>
    if (splitDelim path.data).length > 1 then
      some (((splitDelim path.data).getD ((splitDelim path.data).length - 2) []).asString)
    else none

/-- role_hierarchy is the fixed lookup table defined inline in the source. -/
def role_hierarchy : List (String × String) :=
  [("minister", "01 - Minister"),
   ("deputy minister", "02 - Deputy Minister"),
   ("assistant deputy minister", "03 - Associate/Assistant Deputy Minister"),
   ("associate assistant deputy minister", "03.5 - Associate Assistant Deputy Minister"),
   ("chief of staff", "04 - Chief of Staff"),
   ("chief/commissioner", "05 - Chief / President / Commissioner"),
   ("vice-president", "06 - Vice-President"),
   ("director general", "07 - Director General"),
   ("executive director", "08 - Executive Director"),
   ("director", "09 - Director"),
   ("manager", "10 - Manager"),
   ("principal/senior advisor", "11 - Senior Advisor"),
   ("senior policy professional", "12 - Senior Analyst"),
   ("scientist/researcher", "13 - Scientist / Researcher"),
   ("specialist/lead", "14 - Specialist / Lead"),
   ("governor", "15 - Governor"),
   ("secretary", "16 - Secretary"),
   ("executive assistant", "17 - Executive Assistant")]

/-- roleDisplay models the map-then-fillna derivation of RoleDisplayName: the
table value when the canonical role is a key, the raw value on a miss, and a
missing value stays missing. -/
def roleDisplay : Option String → Option String
  | none => none
  | some r =>
    match role_hierarchy.lookup r with
    | some v => some v
    | none => some r

/-- searchableDept models the SearchableDepartment lambda: acronym, space,
hyphen, space, then the name when an acronym exists, else the name alone. -/
def searchableDept : Option String → Option String
  | none => none
  | some name =>
    if create_acronym (some name) ≠ "" then
      some (create_acronym (some name) ++ " - " ++ name)
    else some name

/-- RawRow is one row of the contacts table before enrichment.  Cells are
optional to model missing values. -/
structure RawRow where
  FullName : Option String
  TitleEN : Option String
  Email : Option String
  CanonicalRole : Option String
  DepartmentPathEN : Option String
  TopLevelDepartmentEN : Option String
  IsActing : Option Nat
deriving DecidableEq

/-- Row is an enriched row: the raw cells plus the four derived columns. -/
structure Row extends RawRow where
  RoleDisplayName : Option String
  Team : Option String
  TeamParent : Option String
  SearchableDepartment : Option String
deriving DecidableEq

/-- enrichRow computes the four derived columns of one row, exactly as
load_and_process_data assigns them. -/
def enrichRow (r : RawRow) : Row :=
  { r with
    RoleDisplayName := roleDisplay r.CanonicalRole
    Team := team r.DepartmentPathEN
    TeamParent := teamParent r.DepartmentPathEN
    SearchableDepartment := searchableDept r.TopLevelDepartmentEN }

/-- enrich applies the enrichment to every row of the roster. -/
def enrich (rs : List RawRow) : List Row :=
  rs.map enrichRow

/-! ## Cascading filter stage (src/app.py, lines 111 to 134) -/

/-- Selections holds the four user selection sets in cascade order. -/
structure Selections where
  depts : List String
  roles : List String
  teamsInc : List String
  teamsExc : List String

/-- isinSel models the pandas isin test against a selection list: a missing
value is never in a selection. -/
def isinSel (sel : List String) (v : Option String) : Bool :=
  match v with
  | some s => sel.contains s
  | none => false

/-- lexLeB is code-point lexicographic order on character lists, the order
Python's sorted uses on strings. -/
def lexLeB : List Char → List Char → Bool
  | [], _ => true
  | _ :: _, [] => false
  | a :: as, b :: bs => if a < b then true else if a = b then lexLeB as bs else false

/-- uniqueFirst models pandas unique: distinct values in first-occurrence
order. -/
def uniqueFirst : List String → List String → List String
  | _, [] => []
  | seen, x :: xs =>
    if seen.any (fun y => y = x) then uniqueFirst seen xs
    else x :: uniqueFirst (x :: seen) xs

/-- availableOptions df col models sorted(df[col].dropna().unique()): the
distinct non-missing values of a column, in ascending lexicographic order. -/
def availableOptions (df : List Row) (col : Row → Option String) : List String :=
  List.insertionSort (fun a b : String => lexLeB a.data b.data = true)
    (uniqueFirst [] (df.filterMap col))

/-- deptStep models line 116: keep rows whose searchable department is in the
selection, or pass the table through when the selection is empty. -/
def deptStep (sel : List String) (df : List Row) : List Row :=
  if sel ≠ [] then df.filter (fun r => isinSel sel r.SearchableDepartment) else df

/-- roleStep models line 122 with its guard: filter on the role display name
when the selection is non-empty. -/
def roleStep (sel : List String) (df : List Row) : List Row :=
  if sel ≠ [] then df.filter (fun r => isinSel sel r.RoleDisplayName) else df

/-- incStep models line 130 with its guard: keep only the selected teams when
the selection is non-empty. -/
def incStep (sel : List String) (df : List Row) : List Row :=
  if sel ≠ [] then df.filter (fun r => isinSel sel r.Team) else df

/-- excStep models line 134 with its guard: drop the selected teams when the
selection is non-empty. -/
def excStep (sel : List String) (df : List Row) : List Row :=
  if sel ≠ [] then df.filter (fun r => !(isinSel sel r.Team)) else df

/-- filterCascade is the four filter steps in source order. -/
def filterCascade (df : List Row) (s : Selections) : List Row :=
  excStep s.teamsExc (incStep s.teamsInc (roleStep s.roles (deptStep s.depts df)))

/-- AppView is what one run of the script computes for the interface: the final
filtered table and the four option lists offered to the widgets. -/
structure AppView where
  result : List Row
  departmentOptions : List String
  roleOptions : List String
  teamIncludeOptions : List String
  teamExcludeOptions : List String

/-- appRun mirrors the straight-line widget script of the source, lines 111 to
134: each option list is computed from the working table at the point the
corresponding widget is created.  The team option list teams_in_filtered_df is
computed once, before the include step, and the exclude widget at line 132
reuses that same list. -/
def appRun (df_master : List Row) (sel : Selections) : AppView :=
  let departments := availableOptions df_master (fun r => r.SearchableDepartment)
  let df1 := if sel.depts ≠ [] then
      df_master.filter (fun r => isinSel sel.depts r.SearchableDepartment)
    else df_master
  let roles_in := availableOptions df1 (fun r => r.RoleDisplayName)
  let df2 := if sel.roles ≠ [] then
      df1.filter (fun r => isinSel sel.roles r.RoleDisplayName)
    else df1
  let teams_in := availableOptions df2 (fun r => r.Team)
  let df3 := if sel.teamsInc ≠ [] then
      df2.filter (fun r => isinSel sel.teamsInc r.Team)
    else df2
  let df4 := if sel.teamsExc ≠ [] then
      df3.filter (fun r => !(isinSel sel.teamsExc r.Team))
    else df3
  ⟨df4, departments, roles_in, teams_in, teams_in⟩

/-! ## Sample data used by concrete witnesses and counterexamples -/

/-- raw1 is a sample contact in team A of department Dept. -/
def raw1 : RawRow :=
  ⟨some "Ann Smith", some "Director", some "ann@x.ca", some "director",
   some "Dept / A", some "Dept", some 0⟩

/-- raw2 is a sample contact in team B of department Dept. -/
def raw2 : RawRow :=
  ⟨some "Bob Jones", some "Manager", some "bob@x.ca", some "manager",
   some "Dept / B", some "Dept", some 1⟩

/-- cexDf is a two-row enriched roster with distinct teams A and B. -/
def cexDf : List Row := enrich [raw1, raw2]

/-- cexSel selects team A in the include step and nothing elsewhere. -/
def cexSel : Selections := ⟨[], [], ["A"], []⟩

/-! ## Helper lemmas about the greedy regex model -/

theorem dtlc_none {cs : List Char} (h : ')' ∉ cs) : dropThroughLastClose cs = none := by
  induction cs with
  | nil => rfl
  | cons c cs ih =>
    have hc : c ≠ ')' := fun e => h (e ▸ List.mem_cons_self c cs)
    have hcs : ')' ∉ cs := fun m => h (List.mem_cons_of_mem c m)
    simp only [dropThroughLastClose, ih hcs]
    split
    · rfl
    · simp [hc]

theorem dtlc_last {b c : List Char} (hnl : '\n' ∉ b ++ ')' :: c) (hc : ')' ∉ c) :
    dropThroughLastClose (b ++ ')' :: c) = some c := by
  induction b with
  | nil =>
    simp only [List.nil_append, dropThroughLastClose, dtlc_none hc]
    simp
  | cons y b ih =>
    have hy : y ≠ '\n' := by
      intro e
      exact hnl (by simp [e])
    have hnl2 : '\n' ∉ b ++ ')' :: c := fun m => hnl (List.mem_cons_of_mem y m)
    simp only [List.cons_append, dropThroughLastClose, hy, ite_false, List.append_eq, ih hnl2]

theorem hasPair_false_of_no_close {cs : List Char} (h : ')' ∉ cs) : hasPair cs = false := by
  induction cs with
  | nil => rfl
  | cons c cs ih =>
    have hcs : ')' ∉ cs := fun m => h (List.mem_cons_of_mem c m)
    have hany : cs.any (fun d => d = ')') = false := by
      rw [List.any_eq_false]
      intro x hx
      simp only [decide_eq_true_eq]
      intro e
      exact hcs (e ▸ hx)
    simp [hasPair, hany, ih hcs]

theorem subParensFuel_id {n : Nat} {cs : List Char} (hp : hasPair cs = false)
    (hn : cs.length ≤ n) : subParensFuel n cs = cs := by
  induction n generalizing cs with
  | zero => rfl
  | succ n ih =>
    cases cs with
    | nil => rfl
    | cons c cs =>
      simp only [hasPair, Bool.or_eq_false_iff, Bool.and_eq_false_iff] at hp
      have hp2 : hasPair cs = false := hp.2
      have hlen : cs.length ≤ n := by simpa using hn
      by_cases hc : c = '('
      · have hany : cs.any (fun d => d = ')') = false := by
          rcases hp.1 with h | h
          · rw [hc] at h
            simp at h
          · exact h
        have hnc : ')' ∉ cs := by
          intro m
          rw [List.any_eq_false] at hany
          exact hany ')' m (by simp)
        simp only [subParensFuel, hc, ite_true, dtlc_none hnc]
        rw [ih hp2 hlen]
      · simp only [subParensFuel, hc, ite_false]
        rw [ih hp2 hlen]

theorem subParensFuel_decomp {n : Nat} {a b c : List Char}
    (hnl : '\n' ∉ a ++ '(' :: (b ++ ')' :: c)) (ha : '(' ∉ a) (hc : ')' ∉ c)
    (hn : (a ++ '(' :: (b ++ ')' :: c)).length ≤ n) :
    subParensFuel n (a ++ '(' :: (b ++ ')' :: c)) = a ++ c := by
  induction a generalizing n with
  | nil =>
    cases n with
    | zero => simp at hn
    | succ n =>
      have hnl2 : '\n' ∉ b ++ ')' :: c := by
        intro m
        exact hnl (by simp [m])
      simp only [List.nil_append, subParensFuel, ite_true, dtlc_last hnl2 hc]
      exact subParensFuel_id (hasPair_false_of_no_close hc)
        (by simp at hn; omega)
  | cons x a ih =>
    cases n with
    | zero => simp at hn
    | succ n =>
      have hx : x ≠ '(' := fun e => ha (by simp [e])
      have ha2 : '(' ∉ a := fun m => ha (List.mem_cons_of_mem x m)
      have hnl2 : '\n' ∉ a ++ '(' :: (b ++ ')' :: c) := by
        intro m
        exact hnl (by simp [List.cons_append]; right; simpa using m)
      have hlen : (a ++ '(' :: (b ++ ')' :: c)).length ≤ n := by
        simp only [List.cons_append, List.length_cons, List.length_append] at hn ⊢
        omega
      simp only [List.cons_append, subParensFuel, hx, ite_false, List.append_eq]
      rw [ih hnl2 ha2 hlen]

theorem subParens_id {cs : List Char} (hp : hasPair cs = false) : subParens cs = cs :=
  subParensFuel_id hp le_rfl

theorem subParens_decomp {a b c : List Char}
    (hnl : '\n' ∉ a ++ '(' :: (b ++ ')' :: c)) (ha : '(' ∉ a) (hc : ')' ∉ c) :
    subParens (a ++ '(' :: (b ++ ')' :: c)) = a ++ c :=
  subParensFuel_decomp hnl ha hc le_rfl

/-! ## Helper lemmas about the claim-side covered-span removal -/

theorem rca_append (cs : List Char) (k : Nat) (x y : List Char) :
    removeCoveredAux cs k (x ++ y) =
      removeCoveredAux cs k x ++ removeCoveredAux cs (k + x.length) y := by
  induction x generalizing k with
  | nil => simp [removeCoveredAux]
  | cons c x ih =>
    have harith : k + 1 + x.length = k + (c :: x).length := by
      simp only [List.length_cons]
      omega
    cases hcov : coveredIdx cs k with
    | true =>
      simp only [List.cons_append, removeCoveredAux, hcov, List.append_eq]
      rw [ih, harith]
    | false =>
      simp only [List.cons_append, removeCoveredAux, hcov, List.append_eq]
      rw [ih, harith]

theorem rca_none {cs : List Char} {k : Nat} {suf : List Char}
    (h : ∀ j, k ≤ j → j < k + suf.length → coveredIdx cs j = false) :
    removeCoveredAux cs k suf = suf := by
  induction suf generalizing k with
  | nil => rfl
  | cons c suf ih =>
    have h0 : coveredIdx cs k = false := h k le_rfl (by simp)
    simp only [removeCoveredAux, h0]
    rw [ih]
    intro j hj1 hj2
    refine h j (by omega) ?_
    simp only [List.length_cons]
    omega

theorem rca_all {cs : List Char} {k : Nat} {suf : List Char}
    (h : ∀ j, k ≤ j → j < k + suf.length → coveredIdx cs j = true) :
    removeCoveredAux cs k suf = [] := by
  induction suf generalizing k with
  | nil => rfl
  | cons c suf ih =>
    have h0 : coveredIdx cs k = true := h k le_rfl (by simp)
    simp only [removeCoveredAux, h0]
    apply ih
    intro j hj1 hj2
    refine h j (by omega) ?_
    simp only [List.length_cons]
    omega

theorem covered_before {a b c : List Char} {j : Nat} (hj : j < a.length) (ha : '(' ∉ a) :
    coveredIdx (a ++ '(' :: (b ++ ')' :: c)) j = false := by
  unfold coveredIdx
  have ht : (a ++ '(' :: (b ++ ')' :: c)).take (j + 1) = a.take (j + 1) := by
    rw [List.take_append_eq_append_take]
    have h0 : j + 1 - a.length = 0 := by omega
    rw [h0]
    simp
  rw [ht]
  have hany : (a.take (j + 1)).any (fun c => c = '(') = false := by
    rw [List.any_eq_false]
    intro x hx
    simp only [decide_eq_true_eq]
    intro e
    exact ha (e ▸ List.take_subset _ _ hx)
  rw [hany, Bool.false_and]

theorem covered_mid {a b c : List Char} {j : Nat} (h1 : a.length ≤ j)
    (h2 : j ≤ a.length + b.length + 1) :
    coveredIdx (a ++ '(' :: (b ++ ')' :: c)) j = true := by
  unfold coveredIdx
  rw [Bool.and_eq_true]
  constructor
  · rw [List.any_eq_true]
    refine ⟨'(', ?_, by simp⟩
    rw [List.take_append_eq_append_take]
    have h0 : ∃ t, j + 1 - a.length = t + 1 := ⟨j - a.length, by omega⟩
    obtain ⟨t, ht⟩ := h0
    rw [ht]
    simp [List.take_succ_cons]
  · rw [List.any_eq_true]
    refine ⟨')', ?_, by simp⟩
    have hre : a ++ '(' :: (b ++ ')' :: c) = (a ++ '(' :: b) ++ ')' :: c := by
      simp
    rw [hre, List.drop_append_eq_append_drop]
    have h0 : j - (a ++ '(' :: b).length = 0 := by
      simp only [List.length_append, List.length_cons]
      omega
    rw [h0]
    simp

theorem covered_after {a b c : List Char} {j : Nat} (hj : a.length + b.length + 2 ≤ j)
    (hc : ')' ∉ c) :
    coveredIdx (a ++ '(' :: (b ++ ')' :: c)) j = false := by
  unfold coveredIdx
  have hre : a ++ '(' :: (b ++ ')' :: c) = (a ++ '(' :: b ++ [')']) ++ c := by
    simp
  have hd : (a ++ '(' :: (b ++ ')' :: c)).drop j = c.drop (j - (a ++ '(' :: b ++ [')']).length) := by
    rw [hre, List.drop_append_eq_append_drop]
    have h0 : (a ++ '(' :: b ++ [')']).drop j = [] := by
      apply List.drop_eq_nil_of_le
      simp only [List.length_append, List.length_cons, List.length_singleton,
        List.length_nil]
      omega
    rw [h0]
    simp
  rw [hd]
  have hany : (c.drop (j - (a ++ '(' :: b ++ [')']).length)).any (fun c => c = ')') = false := by
    rw [List.any_eq_false]
    intro x hx
    simp only [decide_eq_true_eq]
    intro e
    exact hc (e ▸ List.drop_subset _ _ hx)
  rw [hany, Bool.and_false]

theorem removeCovered_decomp {a b c : List Char} (ha : '(' ∉ a) (hc : ')' ∉ c) :
    removeCovered (a ++ '(' :: (b ++ ')' :: c)) = a ++ c := by
  unfold removeCovered
  rw [rca_append]
  have hx : '(' :: (b ++ ')' :: c) = ('(' :: (b ++ [')'])) ++ c := by
    simp
  nth_rewrite 3 [hx]
  rw [rca_append]
  rw [rca_none (fun j hj1 hj2 => covered_before (by omega) ha)]
  rw [rca_all (fun j hj1 hj2 => ?_), rca_none (fun j hj1 hj2 => ?_)]
  · simp
  · refine covered_after ?_ hc
    simp only [List.length_cons, List.length_append, List.length_singleton,
      List.length_nil] at hj1
    omega
  · refine covered_mid (by omega) ?_
    simp only [List.length_cons, List.length_append, List.length_singleton,
      List.length_nil] at hj2
    omega

/-! ## A parenthesized span exists exactly when both removals act -/

theorem hasPair_of_decomp {u v w : List Char} :
    hasPair (u ++ '(' :: (v ++ ')' :: w)) = true := by
  induction u with
  | nil =>
    simp only [List.nil_append, hasPair, Bool.or_eq_true]
    left
    rw [Bool.and_eq_true]
    refine ⟨by simp, ?_⟩
    rw [List.any_eq_true]
    exact ⟨')', by simp, by simp⟩
  | cons x u ih =>
    simp only [List.cons_append, hasPair, List.append_eq, ih, Bool.or_true]

theorem covered_hasPair {cs : List Char} {k : Nat} (h : coveredIdx cs k = true) :
    hasPair cs = true := by
  unfold coveredIdx at h
  rw [Bool.and_eq_true, List.any_eq_true, List.any_eq_true] at h
  obtain ⟨⟨o, ho, hoeq⟩, cl, hcl, hcleq⟩ := h
  simp only [decide_eq_true_eq] at hoeq hcleq
  subst hoeq
  subst hcleq
  have hklen : k < cs.length := by
    by_contra hge
    rw [List.drop_eq_nil_of_le (by omega)] at hcl
    simp at hcl
  by_cases hmem : ')' ∈ cs.drop (k + 1)
  · obtain ⟨s, t, hst⟩ := List.append_of_mem ho
    obtain ⟨u, v, huv⟩ := List.append_of_mem hmem
    rw [← List.take_append_drop (k + 1) cs, hst, huv]
    have hre : (s ++ '(' :: t) ++ (u ++ ')' :: v) = s ++ '(' :: ((t ++ u) ++ ')' :: v) := by
      simp
    rw [hre]
    exact hasPair_of_decomp
  · have hdk : cs.drop k = cs[k] :: cs.drop (k + 1) := List.drop_eq_getElem_cons hklen
    have hkc : cs[k] = ')' := by
      rw [hdk] at hcl
      rcases List.mem_cons.mp hcl with h1 | h1
      · exact h1.symm
      · exact absurd h1 hmem
    have hot : '(' ∈ cs.take k := by
      rw [List.take_succ] at ho
      rcases List.mem_append.mp ho with h1 | h1
      · exact h1
      · rw [List.getElem?_eq_getElem hklen, hkc] at h1
        simp at h1
    obtain ⟨s, t, hst⟩ := List.append_of_mem hot
    rw [← List.take_append_drop k cs, hst, hdk, hkc]
    have hre : (s ++ '(' :: t) ++ ')' :: cs.drop (k + 1) =
        s ++ '(' :: (t ++ ')' :: cs.drop (k + 1)) := by
      simp
    rw [hre]
    exact hasPair_of_decomp

theorem removeCovered_id {cs : List Char} (hp : hasPair cs = false) :
    removeCovered cs = cs := by
  unfold removeCovered
  apply rca_none
  intro j hj1 hj2
  cases h : coveredIdx cs j with
  | false => rfl
  | true =>
    rw [covered_hasPair h] at hp
    simp at hp

theorem mem_last_split {x : Char} {l : List Char} (h : x ∈ l) :
    ∃ m t, l = m ++ x :: t ∧ x ∉ t := by
  induction l with
  | nil => simp at h
  | cons c l ih =>
    by_cases hx : x ∈ l
    · obtain ⟨m, t, hmt, hnt⟩ := ih hx
      exact ⟨c :: m, t, by rw [hmt, List.cons_append], hnt⟩
    · have hxc : x = c := by
        rcases List.mem_cons.mp h with h1 | h1
        · exact h1
        · exact absurd h1 hx
      exact ⟨[], l, by rw [hxc, List.nil_append], hx⟩

theorem hasPair_decomp {cs : List Char} (h : hasPair cs = true) :
    ∃ a b c, cs = a ++ '(' :: (b ++ ')' :: c) ∧ '(' ∉ a ∧ ')' ∉ c := by
  induction cs with
  | nil => simp [hasPair] at h
  | cons d cs ih =>
    by_cases hp : hasPair cs = true
    · obtain ⟨a, b, c, hdec, ha, hc⟩ := ih hp
      by_cases hd : d = '('
      · refine ⟨[], a ++ '(' :: b, c, ?_, by simp, hc⟩
        rw [hd, hdec]
        simp
      · refine ⟨d :: a, b, c, by rw [hdec, List.cons_append], ?_, hc⟩
        intro hm
        rcases List.mem_cons.mp hm with h1 | h1
        · exact hd h1.symm
        · exact ha h1
    · simp only [hasPair, Bool.or_eq_true] at h
      rcases h with h | h
      · rw [Bool.and_eq_true] at h
        have hd : d = '(' := by simpa using h.1
        have hcl : ')' ∈ cs := by
          have h2 := h.2
          rw [List.any_eq_true] at h2
          obtain ⟨x, hx, hxe⟩ := h2
          simp only [decide_eq_true_eq] at hxe
          exact hxe ▸ hx
        obtain ⟨m, t, hmt, hnt⟩ := mem_last_split hcl
        exact ⟨[], m, t, by rw [hd, hmt, List.nil_append], by simp, hnt⟩
      · exact absurd h hp

theorem subParens_eq_removeCovered {cs : List Char} (hnl : '\n' ∉ cs) :
    subParens cs = removeCovered cs := by
  cases hp : hasPair cs with
  | false => rw [subParens_id hp, removeCovered_id hp]
  | true =>
    obtain ⟨a, b, c, hdec, ha, hc⟩ := hasPair_decomp hp
    subst hdec
    rw [subParens_decomp hnl ha hc, removeCovered_decomp ha hc]

/-! ## Character and assembly lemmas for the acronym output -/

theorem uint32_le_iff (a b : UInt32) : a ≤ b ↔ a.toNat ≤ b.toNat := by
  rw [UInt32.le_def, BitVec.le_def]
  rfl

theorem isLower_iff (c : Char) : c.isLower = true ↔ 97 ≤ c.toNat ∧ c.toNat ≤ 122 := by
  simp only [Char.isLower, Bool.and_eq_true, decide_eq_true_eq, GE.ge, uint32_le_iff]
  constructor
  · rintro ⟨h1, h2⟩
    exact ⟨by simpa using h1, by simpa using h2⟩
  · rintro ⟨h1, h2⟩
    exact ⟨by simpa using h1, by simpa using h2⟩

theorem toUpper_not_isLower (c : Char) : (c.toUpper).isLower = false := by
  have hval : ∀ (n : Nat) (h : Nat.isValidChar n), (Char.ofNatAux n h).toNat = n :=
    fun n h => rfl
  simp only [Char.toUpper]
  split
  · rename_i h
    obtain ⟨h1, h2⟩ := h
    have hvalid : Nat.isValidChar (c.toNat - 32) := Or.inl (by omega)
    rw [Char.ofNat, dif_pos hvalid, Bool.eq_false_iff]
    intro hlow
    rw [isLower_iff, hval] at hlow
    omega
  · rename_i h
    rw [Bool.eq_false_iff]
    intro hlow
    rw [isLower_iff] at hlow
    exact h ⟨by omega, by omega⟩

theorem asString_data (l : List Char) : (l.asString).data = l := rfl

theorem asString_length (l : List Char) : (l.asString).length = l.length := rfl

theorem acrAssemble_no_lower (ws : List (List Char)) :
    (acrAssemble ws).data.all (fun c => !(c.isLower)) = true := by
  unfold acrAssemble
  rw [asString_data, List.all_eq_true]
  intro c hc
  rw [List.mem_flatten] at hc
  obtain ⟨l, hl, hcl⟩ := hc
  rw [List.mem_map] at hl
  obtain ⟨w, _, hw⟩ := hl
  cases w with
  | nil =>
    rw [← hw] at hcl
    simp at hcl
  | cons c0 w =>
    rw [← hw] at hcl
    have hce : c = c0.toUpper := by simpa using hcl
    rw [hce]
    simp [toUpper_not_isLower]

theorem acrAssemble_length_le (ws : List (List Char)) :
    (acrAssemble ws).length ≤ ws.length := by
  unfold acrAssemble
  rw [asString_length, List.length_flatten]
  induction ws with
  | nil => simp
  | cons w ws ih =>
    simp only [List.map_cons, List.map_map, List.sum_cons, List.length_cons]
    have hw : (match w with
      | [] => ([] : List Char)
      | c :: _ => [c.toUpper]).length ≤ 1 := by
      cases w <;> simp
    have hsum := ih
    simp only [List.map_map] at hsum
    omega

/-! ## Helper lemmas about the exact-delimiter path split -/

theorem splitDelim_cons_eq {c : Char} {rest : List Char}
    (hne : ∀ rest1 : List Char, c = ' ' → rest = '/' :: ' ' :: rest1 → False) :
    splitDelim (c :: rest) =
      match splitDelim rest with
      | s :: ss => (c :: s) :: ss
      | [] => [[c]] := by
  rcases rest with _ | ⟨d1, _ | ⟨d2, rest2⟩⟩
  · simp [splitDelim]
  · simp [splitDelim]
  · by_cases hc : c = ' '
    · by_cases hd1 : d1 = '/'
      · by_cases hd2 : d2 = ' '
        · exact (hne rest2 hc (by rw [hd1, hd2])).elim
        · subst hc
          subst hd1
          simp [splitDelim, hd2]
      · subst hc
        simp [splitDelim, hd1]
    · simp [splitDelim, hc]

theorem containsDelim_cons_eq {c : Char} {rest : List Char}
    (hne : ∀ rest1 : List Char, c = ' ' → rest = '/' :: ' ' :: rest1 → False) :
    containsDelim (c :: rest) = containsDelim rest := by
  rcases rest with _ | ⟨d1, _ | ⟨d2, rest2⟩⟩
  · simp [containsDelim]
  · simp [containsDelim]
  · by_cases hc : c = ' '
    · by_cases hd1 : d1 = '/'
      · by_cases hd2 : d2 = ' '
        · exact (hne rest2 hc (by rw [hd1, hd2])).elim
        · subst hc
          subst hd1
          simp [containsDelim, hd2]
      · subst hc
        simp [containsDelim, hd1]
    · simp [containsDelim, hc]

theorem splitDelim_ne_nil (cs : List Char) : splitDelim cs ≠ [] := by
  induction cs using splitDelim.induct with
  | case1 rest ih => simp [splitDelim]
  | case2 c rest hne s ss heq ih =>
    rw [splitDelim_cons_eq hne, heq]
    simp
  | case3 c rest hne heq ih =>
    exact absurd heq ih
  | case4 => simp [splitDelim]

theorem containsDelim_iff (cs : List Char) :
    containsDelim cs = true ↔ 2 ≤ (splitDelim cs).length := by
  induction cs using splitDelim.induct with
  | case1 rest ih =>
    have hpos : 0 < (splitDelim rest).length :=
      List.length_pos.mpr (splitDelim_ne_nil rest)
    constructor
    · intro _
      simp only [splitDelim, List.length_cons]
      omega
    · intro _
      simp [containsDelim]
  | case2 c rest hne s ss heq ih =>
    rw [containsDelim_cons_eq hne, splitDelim_cons_eq hne, heq]
    rw [heq] at ih
    simpa using ih
  | case3 c rest hne heq ih =>
    exact absurd heq (splitDelim_ne_nil rest)
  | case4 => simp [containsDelim, splitDelim]

/-! ## Helper lemmas about the role lookup table -/

theorem lookup_eq_some_of_mem {l : List (String × String)} {r v : String}
    (hnd : (l.map Prod.fst).Nodup) (h : (r, v) ∈ l) : l.lookup r = some v := by
  induction l with
  | nil => simp at h
  | cons p l ih =>
    obtain ⟨a, b⟩ := p
    rw [List.map_cons, List.nodup_cons] at hnd
    rcases List.mem_cons.mp h with h1 | h1
    · injection h1 with ha hb
      subst ha
      subst hb
      simp [List.lookup]
    · have hbeq : (r == a) = false := by
        rw [beq_eq_false_iff_ne]
        intro e
        subst e
        exact hnd.1 (List.mem_map.mpr ⟨(r, v), h1, rfl⟩)
      simp only [List.lookup, hbeq]
      exact ih hnd.2 h1

theorem lookup_eq_none_of_not_mem {l : List (String × String)} {r : String}
    (h : r ∉ l.map Prod.fst) : l.lookup r = none := by
  induction l with
  | nil => rfl
  | cons p l ih =>
    obtain ⟨a, b⟩ := p
    have hbeq : (r == a) = false := by
      rw [beq_eq_false_iff_ne]
      intro e
      exact h (by simp [e])
    simp only [List.lookup, hbeq]
    refine ih ?_
    intro m
    refine h ?_
    rw [List.map_cons]
    exact List.mem_cons_of_mem _ m

/-! ## Claim theorems -/

/-- Claim C1 counterexample: on a two-team enriched roster with team-include
selection A, the option list the run exposes for the team-exclude widget is
still the pre-include list A, B rather than the sorted distinct teams A of the
rows surviving the include step, so the claim fails as stated. -/
theorem c1_counterexample :
    (appRun cexDf cexSel).teamExcludeOptions = ["A", "B"] ∧
    availableOptions
      (incStep cexSel.teamsInc (roleStep cexSel.roles (deptStep cexSel.depts cexDf)))
      (fun r => r.Team) = ["A"] ∧
    (appRun cexDf cexSel).teamExcludeOptions ≠
      availableOptions
        (incStep cexSel.teamsInc (roleStep cexSel.roles (deptStep cexSel.depts cexDf)))
        (fun r => r.Team) := by
  refine ⟨by decide, by decide, by decide⟩

/-- Claim C1 (amended): the department options are computed from the full
roster, the role options from the department-step survivors, and the
team-include options from the role-step survivors, each as the sorted distinct
non-missing values of the next filtered column; but the team-exclude options
are the very same list as the team-include options, computed from the rows
surviving the department and role steps only, not from the include-step
survivors. -/
theorem c1_dependent_options (df : List Row) (s : Selections) :
    (appRun df s).departmentOptions = availableOptions df (fun r => r.SearchableDepartment) ∧
    (appRun df s).roleOptions =
      availableOptions (deptStep s.depts df) (fun r => r.RoleDisplayName) ∧
    (appRun df s).teamIncludeOptions =
      availableOptions (roleStep s.roles (deptStep s.depts df)) (fun r => r.Team) ∧
    (appRun df s).teamExcludeOptions = (appRun df s).teamIncludeOptions ∧
    (appRun df s).result = filterCascade df s :=
  ⟨rfl, rfl, rfl, rfl, rfl⟩

/-- Claim C2: applying the filter cascade with all four selections empty
returns the full enriched roster unchanged. -/
theorem c2_empty_identity (df : List Row) :
    (appRun df ⟨[], [], [], []⟩).result = df ∧ filterCascade df ⟨[], [], [], []⟩ = df :=
  ⟨rfl, rfl⟩

/-- Claim C6: with the same team value selected for include and for exclude,
the cascade ends empty, whatever the roster and the earlier selections:
the exclude step runs after the include step. -/
theorem c6_include_exclude_empty (df : List Row) (depts roles : List String) (A : String) :
    (appRun df ⟨depts, roles, [A], [A]⟩).result = [] := by
  have hres : (appRun df ⟨depts, roles, [A], [A]⟩).result =
      excStep [A] (incStep [A] (roleStep roles (deptStep depts df))) := rfl
  rw [hres]
  unfold incStep excStep
  rw [if_pos (List.cons_ne_nil A []), if_pos (List.cons_ne_nil A []),
    List.filter_filter, List.filter_eq_nil_iff]
  intro a ha
  simp

/-- Claim C8: every filter step only removes rows: a row surviving any single
step, or the whole cascade, is one of the rows of the input table, with every
field value untouched. -/
theorem c8_steps_only_remove (sel : List String) (s : Selections) (df : List Row) (r : Row) :
    (r ∈ deptStep sel df → r ∈ df) ∧ (r ∈ roleStep sel df → r ∈ df) ∧
    (r ∈ incStep sel df → r ∈ df) ∧ (r ∈ excStep sel df → r ∈ df) ∧
    (r ∈ filterCascade df s → r ∈ df) := by
  have hstep : ∀ (p : Row → Bool) (l : List Row) (sel2 : List String),
      r ∈ (if sel2 ≠ [] then l.filter p else l) → r ∈ l := by
    intro p l sel2 h
    split at h
    · exact List.mem_of_mem_filter h
    · exact h
  refine ⟨?_, ?_, ?_, ?_, ?_⟩
  · intro h
    unfold deptStep at h
    exact hstep _ _ _ h
  · intro h
    unfold roleStep at h
    exact hstep _ _ _ h
  · intro h
    unfold incStep at h
    exact hstep _ _ _ h
  · intro h
    unfold excStep at h
    exact hstep _ _ _ h
  · intro h
    unfold filterCascade excStep incStep roleStep deptStep at h
    exact hstep _ _ _ (hstep _ _ _ (hstep _ _ _ (hstep _ _ _ h)))

/-- Claim C8 witness: a concrete surviving row of a concrete department step is
one of the input rows. -/
theorem c8_witness :
    enrichRow raw1 ∈ deptStep ["D - Dept"] cexDf ∧ enrichRow raw1 ∈ cexDf :=
  ⟨by decide,
   (c8_steps_only_remove ["D - Dept"] ⟨[], [], [], []⟩ cexDf (enrichRow raw1)).1 (by decide)⟩

/-- Claim C10: every step of the cascade keeps its surviving rows in their
original relative order: each step output and each cascade prefix is an
order-preserving sublist of the enriched roster. -/
theorem c10_order_preserved (s : Selections) (df : List Row) :
    (deptStep s.depts df).Sublist df ∧
    (roleStep s.roles (deptStep s.depts df)).Sublist df ∧
    (incStep s.teamsInc (roleStep s.roles (deptStep s.depts df))).Sublist df ∧
    (filterCascade df s).Sublist df := by
  have hstep : ∀ (p : Row → Bool) (l : List Row) (sel2 : List String),
      (if sel2 ≠ [] then l.filter p else l).Sublist l := by
    intro p l sel2
    split
    · exact List.filter_sublist l
    · exact List.Sublist.refl l
  have h1 : (deptStep s.depts df).Sublist df := hstep _ _ _
  have h2 : (roleStep s.roles (deptStep s.depts df)).Sublist (deptStep s.depts df) :=
    hstep _ _ _
  have h3 : (incStep s.teamsInc (roleStep s.roles (deptStep s.depts df))).Sublist
      (roleStep s.roles (deptStep s.depts df)) := hstep _ _ _
  have h4 : (filterCascade df s).Sublist
      (incStep s.teamsInc (roleStep s.roles (deptStep s.depts df))) := hstep _ _ _
  exact ⟨h1, h2.trans h1, (h3.trans h2).trans h1, ((h4.trans h3).trans h2).trans h1⟩

/-- Claim C3 counterexample: the regex cannot match a parenthesized group that
spans a newline, so on the input open-paren a newline b close-paren the code
keeps the text and produces the two-character result, while removing every
parenthesized sub-string as the claim states would produce the empty string. -/
theorem c3_counterexample :
    create_acronym (some "(a\nb)") = "(B" ∧ acronymClaim (some "(a\nb)") = "" ∧
    create_acronym (some "(a\nb)") ≠ acronymClaim (some "(a\nb)") := by
  refine ⟨by decide, by decide, by decide⟩

/-- Claim C3 (amended): a non-string input yields the empty string; for every
string input with no newline character, the result is the concatenation of the
upper-cased first letter of each whitespace-delimited word remaining after
removing every parenthesized sub-string and skipping stop words; the two quoted
examples hold. -/
theorem c3_acronym_description :
    create_acronym none = "" ∧
    (∀ s : String, '\n' ∉ s.data → create_acronym (some s) = acronymClaim (some s)) ∧
    create_acronym (some "Department of Finance (Canada)") = "DF" ∧
    create_acronym (some "") = "" := by
  refine ⟨rfl, ?_, by decide, rfl⟩
  intro s hnl
  simp only [create_acronym, acronymClaim]
  rw [subParens_eq_removeCovered hnl]

/-- Claim C3 witness: the equality of the code's computation and the claim's
description at a concrete newline-free department name. -/
theorem c3_witness :
    '\n' ∉ ("Department of Finance (Canada)" : String).data ∧
    create_acronym (some "Department of Finance (Canada)") =
      acronymClaim (some "Department of Finance (Canada)") :=
  ⟨by decide, c3_acronym_description.2.1 "Department of Finance (Canada)" (by decide)⟩

/-- Claim C4 counterexample: a word starting with a digit contributes that
digit unchanged, so the acronym of the department name 3M is the single
character 3, which is not an upper-case letter. -/
theorem c4_counterexample :
    ¬ (∀ d : String, (create_acronym (some d)).data.all Char.isUpper = true ∧
        (create_acronym (some d)).length ≤ (acrWords (subParens d.data)).length) :=
  fun h => absurd (h "3M").1 (by decide)

/-- Claim C4 (amended): for every department name string, the acronym contains
no lower-case letter, and its length is at most the number of words remaining
after the parenthesized-text removal that are not stop words. -/
theorem c4_acronym_output (d : String) :
    (create_acronym (some d)).data.all (fun c => !(c.isLower)) = true ∧
    (create_acronym (some d)).length ≤ (acrWords (subParens d.data)).length :=
  ⟨acrAssemble_no_lower (acrWords (subParens d.data)),
   acrAssemble_length_le (acrWords (subParens d.data))⟩

/-- Claim C9 counterexample: with a newline between two parenthesized groups
the regex removes the groups separately, so the word Mid between them still
contributes a letter: the result is ME, not the E that removing the whole span
from the first open parenthesis through the last close parenthesis would
give. -/
theorem c9_counterexample :
    ("(a) Mid\n(b) End" : String).data =
      [] ++ '(' :: (("a) Mid\n(b" : String).data ++ ')' :: (" End" : String).data) ∧
    '(' ∉ ([] : List Char) ∧ ')' ∉ (" End" : String).data ∧
    subParens ("(a) Mid\n(b) End" : String).data ≠ [] ++ (" End" : String).data ∧
    create_acronym (some "(a) Mid\n(b) End") = "ME" := by
  refine ⟨by decide, by decide, by decide, by decide, by decide⟩

/-- Claim C9 (amended): for every newline-free string in which some open
parenthesis is later followed by some close parenthesis (in particular when it
holds two or more parenthesized groups), the deriver removes the entire span
from the first such open parenthesis through the last close parenthesis before
forming the acronym, so words lying between two parenthesized groups contribute
no letter; the quoted example yields AG. -/
theorem c9_greedy_span :
    (∀ a b c : List Char, '\n' ∉ a ++ '(' :: (b ++ ')' :: c) → '(' ∉ a → ')' ∉ c →
      subParens (a ++ '(' :: (b ++ ')' :: c)) = a ++ c) ∧
    create_acronym (some "Alpha (x) Beta (y) Gamma") = "AG" :=
  ⟨fun _ _ _ hnl ha hc => subParens_decomp hnl ha hc, by decide⟩

/-- Claim C9 witness: the greedy span removal evaluated on the concrete quoted
example. -/
theorem c9_witness :
    '\n' ∉ ("Alpha ".data ++ '(' :: ("x) Beta (y".data ++ ')' :: " Gamma".data)) ∧
    subParens ("Alpha ".data ++ '(' :: ("x) Beta (y".data ++ ')' :: " Gamma".data)) =
      "Alpha ".data ++ " Gamma".data :=
  ⟨by decide,
   c9_greedy_span.1 "Alpha ".data "x) Beta (y".data " Gamma".data
     (by decide) (by decide) (by decide)⟩

/-- Claim C5: splitting on the exact space-slash-space delimiter gives Team as
the last segment when the delimiter occurs, equivalently when there are at
least two segments, and the original value otherwise; TeamParent is the
second-to-last segment when there are at least two segments and absent
otherwise; missing values pass through; the quoted examples hold. -/
theorem c5_path_split :
    (∀ p : String, 2 ≤ (splitDelim p.data).length →
      team (some p) = some ((splitDelim p.data).getLastD []).asString ∧
      teamParent (some p) =
        some (((splitDelim p.data).getD ((splitDelim p.data).length - 2) []).asString)) ∧
    (∀ p : String, (splitDelim p.data).length < 2 →
      team (some p) = some p ∧ teamParent (some p) = none) ∧
    team none = none ∧ teamParent none = none ∧
    team (some "SingleSegment") = some "SingleSegment" ∧
    teamParent (some "SingleSegment") = none ∧
    team (some "Finance Canada / Policy Branch / Budget Team") = some "Budget Team" ∧
    teamParent (some "Finance Canada / Policy Branch / Budget Team") = some "Policy Branch" := by
  refine ⟨?_, ?_, rfl, rfl, by decide, by decide, by decide, by decide⟩
  · intro p hp
    have hcd : containsDelim p.data = true := (containsDelim_iff p.data).mpr hp
    constructor
    · simp [team, hcd]
    · simp only [teamParent]
      rw [if_pos (by omega)]
  · intro p hp
    have hcd : containsDelim p.data = false := by
      cases h : containsDelim p.data
      · rfl
      · exact absurd ((containsDelim_iff p.data).mp h) (by omega)
    constructor
    · simp [team, hcd]
    · simp only [teamParent]
      rw [if_neg (by omega)]

/-- Claim C5 witness: the split evaluated on the concrete three-segment path
and Team read off as its last segment. -/
theorem c5_witness :
    2 ≤ (splitDelim ("Finance Canada / Policy Branch / Budget Team" : String).data).length ∧
    team (some "Finance Canada / Policy Branch / Budget Team") =
      some ((splitDelim ("Finance Canada / Policy Branch / Budget Team" : String).data).getLastD
        []).asString :=
  ⟨by decide, (c5_path_split.1 "Finance Canada / Policy Branch / Budget Team" (by decide)).1⟩

/-- Claim C7: the derived role display name is the role-hierarchy value when
the canonical role is a key of the table, and the raw canonical role itself
when it is not, with no failure; director maps to 09 - Director and the
unmapped bespoke title maps to itself. -/
theorem c7_role_fallback :
    (∀ r v : String, (r, v) ∈ role_hierarchy → roleDisplay (some r) = some v) ∧
    (∀ r : String, r ∉ role_hierarchy.map Prod.fst → roleDisplay (some r) = some r) ∧
    roleDisplay none = none ∧
    roleDisplay (some "director") = some "09 - Director" ∧
    roleDisplay (some "bespoke title") = some "bespoke title" := by
  have hnd : (role_hierarchy.map Prod.fst).Nodup := by decide
  refine ⟨?_, ?_, rfl, by decide, by decide⟩
  · intro r v h
    simp [roleDisplay, lookup_eq_some_of_mem hnd h]
  · intro r h
    simp [roleDisplay, lookup_eq_none_of_not_mem h]

/-- Claim C7 witness: the mapped example applied through the theorem at the
concrete table entry for director. -/
theorem c7_witness :
    ("director", "09 - Director") ∈ role_hierarchy ∧
    roleDisplay (some "director") = some "09 - Director" :=
  ⟨by decide, c7_role_fallback.1 "director" "09 - Director" (by decide)⟩

end Geds
